import Mathlib

/-!
Verification of the KVStore repository: a B+ tree index (`index.py`), an
append-only log (`storage.py`) and the engine gluing them together
(`engine.py`).

Python strings are modelled as lists of Unicode code points (`Str := List Nat`);
Python's string comparison is lexicographic on code points, modelled by `ltStr`.
Python `None`/missing results are modelled with `Option`.

The B+ tree of `index.py` is a pointer structure with parent pointers and a
`next` chain over the leaves.  It is modelled as a pure term: a node is either
a leaf (parallel key/value lists) or an internal node (separator keys plus a
children list).  The imperative split-and-propagate of `set` (which walks back
up via `parent` pointers, inserting the separator immediately to the right of
the split child, exactly at the child's index) is rendered bottom-up: the
recursive insertion returns either the rebuilt child or a `(left, sep, right)`
split that the caller places at the descent index, matching
`_insert_into_parent` / `_split_internal`.  The leaf `next` chain always links
the leaves in left-to-right order (splits relink `left.next = right`,
`right.next = old next`), so the chain is modelled as the in-order sequence of
leaves of the tree.
-/

/-- A Python string: its list of Unicode code points. -/
abbrev Str := List Nat

/-- Python string comparison `a < b`: lexicographic on code points, a proper
prefix is smaller. -/
def ltStr : Str → Str → Bool
  | [], [] => false
  | [], _ :: _ => true
  | _ :: _, [] => false
  | a :: as, b :: bs => if a < b then true else if b < a then false else ltStr as bs

/-- Python string comparison `a <= b`. -/
def leStr (a b : Str) : Bool := !ltStr b a

/-- Python `bisect.bisect_left(xs, k)` on a sorted list `xs`: the first index
whose element is not `< k` (equivalently, the number of leading elements
`< k`).  All lists it is applied to in `index.py` are kept sorted. -/
def bisect_left (xs : List Str) (k : Str) : Nat :=
  match xs with
  | [] => 0
  | x :: r => if ltStr x k then bisect_left r k + 1 else 0

/-- A node of the B+ tree of `index.py`: `_Leaf` holds parallel `keys` and
`values` lists, `_Internal` holds separator `keys` and a `children` list. -/
inductive Node where
  | leaf (ks : List Str) (vs : List Str) : Node
  | internal (ks : List Str) (cs : List Node) : Node

/-- Result of inserting below one node: either the rebuilt node, or a split
`(left, separator, right)` that the parent must absorb (mirroring
`_insert_into_parent`'s arguments `left, key, right`). -/
inductive InsRes where
  | one (n : Node) : InsRes
  | two (l : Node) (sep : Str) (r : Node) : InsRes

/-- `_split_leaf`'s list manipulation: `mid = (len(keys) + 1) // 2`; the left
leaf keeps `keys[:mid]`, the new right sibling receives `keys[mid:]` (values
split in parallel), and the separator pushed to the parent is
`new_leaf.keys[0]` (total here via `headD`; the right half is nonempty
whenever the leaf held at least two keys). -/
def splitLeaf (ks vs : List Str) : (List Str × List Str) × Str × (List Str × List Str) :=
  let mid := (ks.length + 1) / 2
  ((ks.take mid, vs.take mid), (ks.drop mid).headD [], (ks.drop mid, vs.drop mid))

/-- `_split_internal`'s list manipulation: `mid = len(keys) // 2`; the key
`keys[mid]` is promoted (kept in neither half), the left half keeps
`keys[:mid]` with `children[:mid+1]`, the right half `keys[mid+1:]` with
`children[mid+1:]`. -/
def splitInternal (ks : List Str) (cs : List Node) :
    (List Str × List Node) × Str × (List Str × List Node) :=
  let mid := ks.length / 2
  ((ks.take mid, cs.take (mid + 1)), ks.getD mid [], (ks.drop (mid + 1), cs.drop (mid + 1)))

mutual
/-- One `set(key, value)` pass below a node, with `mx = MAX_KEYS = ORDER - 1`.
Returns (grew?, result): `grew` is whether `_size` was incremented (the
key was absent).  Leaf case mirrors `BPlusTreeIndex.set` steps 2-5: locate
`i = bisect_left(keys, key)`; overwrite in place when `keys[i] == key`;
otherwise insert at `i` and split when `len(keys) > MAX_KEYS`.  Internal
descent mirrors `_find_leaf` (`i = bisect_left(internal.keys, key)`) and the
upward propagation mirrors `_insert_into_parent`/`_split_internal`: a child
split `(l, s, r)` replaces the child with `l`, inserts `s` at the child's
index and `r` right after it, then splits when over capacity. -/
def insertNode (mx : Nat) (k v : Str) : Node → Bool × InsRes
  | .leaf ks vs =>
    let i := bisect_left ks k
    if ks.get? i = some k then
      (false, .one (.leaf ks (vs.set i v)))
    else
      let ks' := ks.insertIdx i k
      let vs' := vs.insertIdx i v
      if mx < ks'.length then
        let r := splitLeaf ks' vs'
        (true, .two (.leaf r.1.1 r.1.2) r.2.1 (.leaf r.2.2.1 r.2.2.2))
      else (true, .one (.leaf ks' vs'))
  | .internal ks cs =>
    let i := bisect_left ks k
    match insertAt mx k v i cs with
    | (grew, .one c) => (grew, .one (.internal ks (cs.set i c)))
    | (grew, .two l s r) =>
      let ks' := ks.insertIdx i s
      let cs' := (cs.set i l).insertIdx (i + 1) r
      if mx < ks'.length then
        let q := splitInternal ks' cs'
        (grew, .two (.internal q.1.1 q.1.2) q.2.1 (.internal q.2.2.1 q.2.2.2))
      else (grew, .one (.internal ks' cs'))
/-- Descend into `children[i]` (the child `_find_leaf` selects). -/
def insertAt (mx : Nat) (k v : Str) : Nat → List Node → Bool × InsRes
  | _, [] => (false, .one (.leaf [] []))
  | 0, c :: _ => insertNode mx k v c
  | i + 1, _ :: cs => insertAt mx k v i cs
end

/-- The public index object: `ORDER` (fanout), `_root`, `_size`. -/
structure BPlusTreeIndex where
  order : Nat
  root : Node
  size : Nat

/-- `BPlusTreeIndex(order)`: a fresh index whose root is an empty leaf
(the constructor asserts `order >= 4`; the default is `16`). -/
def BPlusTreeIndex.init (order : Nat) : BPlusTreeIndex := ⟨order, .leaf [] [], 0⟩

/-- `set(key, value)`: insert or overwrite; when the root splits, a fresh
root with one separator and two children is made (`_split_leaf` /
`_split_internal`, `parent is None` branches). -/
def BPlusTreeIndex.set (t : BPlusTreeIndex) (k v : Str) : BPlusTreeIndex :=
  match insertNode (t.order - 1) k v t.root with
  | (grew, .one n) => ⟨t.order, n, t.size + if grew then 1 else 0⟩
  | (grew, .two l s r) => ⟨t.order, .internal [s] [l, r], t.size + if grew then 1 else 0⟩

mutual
/-- `_find_leaf(key)`: from the root descend with
`i = bisect_left(internal.keys, key)` into `children[i]` until a leaf is
reached; returns that leaf's `(keys, values)`. -/
def findLeaf (k : Str) : Node → List Str × List Str
  | .leaf ks vs => (ks, vs)
  | .internal ks cs => findLeafL k (bisect_left ks k) cs
/-- Index into the children list for `findLeaf` (an absent child cannot occur
on trees built by the code; the total fallback is the empty leaf). -/
def findLeafL (k : Str) : Nat → List Node → List Str × List Str
  | _, [] => ([], [])
  | 0, c :: _ => findLeaf k c
  | i + 1, _ :: cs => findLeafL k i cs
end

/-- `get(key)`: find the leaf, `i = bisect_left(leaf.keys, key)`, return
`leaf.values[i]` when `i < len(leaf.keys)` and `leaf.keys[i] == key`, else
`None`. -/
def BPlusTreeIndex.get (t : BPlusTreeIndex) (k : Str) : Option Str :=
  let p := findLeaf k t.root
  let i := bisect_left p.1 k
  if p.1.get? i = some k then p.2.get? i else none

mutual
/-- `items()`: walk the leaf chain from the leftmost leaf, yielding the
zipped `(key, value)` pairs of each leaf in order.  The chain visits the
leaves in left-to-right order, i.e. the in-order leaf sequence. -/
def itemsN : Node → List (Str × Str)
  | .leaf ks vs => ks.zip vs
  | .internal _ cs => itemsL cs
/-- Concatenated items of a children list, left to right. -/
def itemsL : List Node → List (Str × Str)
  | [] => []
  | c :: cs => itemsN c ++ itemsL cs
end

/-- `items()` on the index object. -/
def BPlusTreeIndex.items (t : BPlusTreeIndex) : List (Str × Str) := itemsN t.root

mutual
/-- The walk of `iter_range` before its `end` check: find the leaf for
`start` (same `bisect_left` descent as `_find_leaf`), start at
`idx = bisect_left(leaf.keys, start)` inside it, then sweep right along the
whole remaining leaf chain via `.next`. -/
def tailFrom (k : Str) : Node → List (Str × Str)
  | .leaf ks vs => (ks.zip vs).drop (bisect_left ks k)
  | .internal ks cs => tailFromL k (bisect_left ks k) cs
/-- Descend into child `i`; the chain continues through every leaf of the
later siblings. -/
def tailFromL (k : Str) : Nat → List Node → List (Str × Str)
  | _, [] => []
  | 0, c :: cs => tailFrom k c ++ itemsL cs
  | i + 1, _ :: cs => tailFromL k i cs
end

/-- `iter_range(start, end)`: sweep from the leaf containing `start`,
stopping at the first key `k` with `end is not None and k >= end`. -/
def iter_range (t : BPlusTreeIndex) (s : Str) (e : Option Str) : List (Str × Str) :=
  match e with
  | none => tailFrom s t.root
  | some e => (tailFrom s t.root).takeWhile (fun kv => ltStr kv.1 e)

/-- `_prefix_hi(prefix)`: `prefix + "￿"` (code point `0xFFFF`). -/
def prefix_hi (p : Str) : Str := p ++ [0xFFFF]

/-- `iter_prefix(prefix)`: the whole `items()` for the empty prefix, else the
range `[prefix, _prefix_hi(prefix))`. -/
def iter_prefix (t : BPlusTreeIndex) (p : Str) : List (Str × Str) :=
  if p = [] then BPlusTreeIndex.items t
  else iter_range t p (some (prefix_hi p))

/-!
Model of `storage.py`.  The log file is a text file, modelled as its list of
code points.  `AppendOnlyLog` is modelled in its default configuration, the
one `KVEngine` constructs: `max_key_len = max_value_len = None`,
`strict = False`.  A missing file replays as the empty sequence, the same as
an empty file, so the file is modelled by its (possibly empty) content.
-/

/-- Python's whitespace set for `str` patterns (`\s` / `str.isspace`):
tab, LF, VT, FF, CR, FS, GS, RS, US, space, NEL, NBSP and the Unicode
space separators. -/
def isSpacePy (c : Nat) : Bool :=
  (9 ≤ c && c ≤ 13) || (28 ≤ c && c ≤ 31) || c == 32 || c == 133 || c == 160 ||
  c == 0x1680 || (0x2000 ≤ c && c ≤ 0x200A) || c == 0x2028 || c == 0x2029 ||
  c == 0x202F || c == 0x205F || c == 0x3000

/-- Python `re.match(r"^\S+$", key)` as a Boolean: the match succeeds when the
key is a nonempty run of non-whitespace characters, or such a run followed by
one final newline — Python's `$` also matches just before a newline that ends
the string, so a single trailing `"\n"` slips through the pattern. -/
def keyRegexOk (k : Str) : Bool :=
  let core := if k.getLast? = some 10 then k.dropLast else k
  !core.isEmpty && core.all (fun c => !isSpacePy c)

/-- Split a string at its first space (code point 32): `some (before, after)`
when a space occurs, `none` otherwise. -/
def splitSpOnce : Str → Option (Str × Str)
  | [] => none
  | c :: r =>
    if c = 32 then some ([], r)
    else
      match splitSpOnce r with
      | none => none
      | some (a, b) => some (c :: a, b)

/-- Python `line.split(" ", 2)`: split at the first two spaces; the pieces
(at most three, possibly empty) keep every other character, so the third
piece absorbs the rest of the line including further spaces. -/
def splitSp2 (s : Str) : List Str :=
  match splitSpOnce s with
  | none => [s]
  | some (a, r) =>
    match splitSpOnce r with
    | none => [a, r]
    | some (b, c) => [a, b, c]

/-- The command token `"SET"`. -/
def SETtok : Str := [83, 69, 84]

/-- `_parse_and_validate(line)` in the default configuration (no length
limits), collapsing the `(ok, key, value, reason)` quadruple to an `Option`:
`line.split(" ", 2)` must give exactly three parts, the command must be
`"SET"`, and the key must match `^\S+$`. -/
def parse_and_validate (line : Str) : Option (Str × Str) :=
  match splitSp2 line with
  | [cmd, key, value] =>
    if cmd ≠ SETtok then none
    else if !keyRegexOk key then none
    else some (key, value)
  | _ => none

/-- Python `line.rstrip("\n")`: drop every trailing newline character. -/
def rstrip10 (s : Str) : Str := (s.reverse.dropWhile (fun c => c == 10)).reverse

mutual
/-- Iterating a Python text file opened with `newline=""`: universal-newline
line splitting.  A line ends at `"\n"`, at `"\r\n"`, or at a lone `"\r"`;
terminators are kept; a final piece with no terminator is still produced
(this is how the unterminated trailing line reaches the parser). -/
def splitLinesAux (acc : Str) : Str → List Str
  | [] => if acc.isEmpty then [] else [acc.reverse]
  | c :: rest =>
    if c = 10 then (acc.reverse ++ [10]) :: splitLinesAux [] rest
    else if c = 13 then splitLinesCR acc rest
    else splitLinesAux (c :: acc) rest
/-- Continuation after a carriage return: a following `"\n"` closes the same
line with the `"\r\n"` terminator; another `"\r"` or any other character (or
the end of the file) closes the line with the lone `"\r"`. -/
def splitLinesCR (acc : Str) : Str → List Str
  | [] => [acc.reverse ++ [13]]
  | c :: rest =>
    if c = 10 then (acc.reverse ++ [13, 10]) :: splitLinesAux [] rest
    else if c = 13 then (acc.reverse ++ [13]) :: splitLinesCR [] rest
    else (acc.reverse ++ [13]) :: splitLinesAux [c] rest
end

/-- Split a file's content into its lines, as Python's file iteration does. -/
def splitLines (s : Str) : List Str := splitLinesAux [] s

/-- `AppendOnlyLog.replay()` with `strict=False`: iterate the lines, strip
the trailing newline, skip empty lines, skip lines `_parse_and_validate`
rejects, and yield the parsed `(key, value)` records in order.  The
seek-to-end peek that only logs a warning about an unterminated trailing
line has no effect on what is yielded, so it does not appear here. -/
def replay (file : Str) : List (Str × Str) :=
  (splitLines file).filterMap (fun raw =>
    let line := rstrip10 raw
    if line = [] then none else parse_and_validate line)

/-- `_validate_key_value_or_raise` in the default configuration: the key must
match `^\S+$` and the value must contain no newline. -/
def validate_key_value (k v : Str) : Bool := keyRegexOk k && !v.contains 10

/-- The line `append_set` writes: `f"SET {key} {value}\n"`. -/
def append_set_line (k v : Str) : Str := SETtok ++ [32] ++ k ++ [32] ++ v ++ [10]

/-!
Model of `engine.py`.  `KVEngine` owns the log file content and the index.
-/

/-- Why `KVEngine.set` can raise: `append_set` raises `ValueError` on
validation failure, `OSError` on a failed write or fsync. -/
inductive SetErr where
  | validation : SetErr
  | io : SetErr
deriving DecidableEq

/-- The engine state: the log file's content and the in-memory index. -/
structure KVEngine where
  file : Str
  index : BPlusTreeIndex

/-- `KVEngine.__init__` + `_load_from_log`: build a fresh
`BPlusTreeIndex()` (default order 16) and apply every replayed record in
append order via `set`. -/
def KVEngine.fromLog (file : Str) : KVEngine :=
  ⟨file, (replay file).foldl (fun t kv => t.set kv.1 kv.2) (BPlusTreeIndex.init 16)⟩

/-- `KVEngine.set(key, value)`: `self._log.append_set(key, value)` first,
`self._index.set(key, value)` only after it returns.  `ioFail` says whether
the OS write/fsync raises `OSError` for this call; any exception propagates
out of `KVEngine.set` before `self._index.set` runs, so on either failure the
returned engine is the unchanged receiver.  (On a real I/O failure the file
may hold a partially written line; the file content of the failure case is
not modelled — the claims about failed writes concern the index.) -/
def KVEngine.set (e : KVEngine) (k v : Str) (ioFail : Bool) :
    Option SetErr × KVEngine :=
  if !validate_key_value k v then (some .validation, e)
  else if ioFail then (some .io, e)
  else (none, ⟨e.file ++ append_set_line k v, e.index.set k v⟩)

/-!
State-passing renderings of the read operations, for the frame claim: the
bodies of `get`, `items`, `iter_range` and `iter_prefix` in `index.py` contain
no assignment to any node or index field (they only descend, index and yield),
so the statement-by-statement translation returns the receiver unchanged
alongside the result.
-/

/-- `get` as a state transformer: result plus the index it leaves behind. -/
def get_state (t : BPlusTreeIndex) (k : Str) : Option Str × BPlusTreeIndex :=
  (BPlusTreeIndex.get t k, t)

/-- Fully consuming `items()` as a state transformer. -/
def items_state (t : BPlusTreeIndex) : List (Str × Str) × BPlusTreeIndex :=
  (BPlusTreeIndex.items t, t)

/-- Fully consuming `iter_range(start, end)` as a state transformer. -/
def iter_range_state (t : BPlusTreeIndex) (s : Str) (e : Option Str) :
    List (Str × Str) × BPlusTreeIndex :=
  ( iter_range t s e, t)

/-- Fully consuming `iter_prefix(prefix)` as a state transformer. -/
def iter_prefix_state (t : BPlusTreeIndex) (p : Str) :
    List (Str × Str) × BPlusTreeIndex :=
  ( iter_prefix t p, t)

/-!
Concrete runs exhibiting the divergences found in `index.py`.  With
`order = 4` (`MAX_KEYS = 3`), inserting a, b, c, d splits the first leaf:
`mid = (4 + 1) // 2 = 2`, left `[a, b]`, right `[c, d]`, separator `c`
(the right sibling's first key).  `_find_leaf` then uses `bisect_left`, which
routes a key *equal* to a separator to the left child — where `c` does not
live.  (The routing table in `_find_leaf`'s own comment, `k0 <= key < k1 ->
c1`, describes `bisect_right`, not the `bisect_left` the code calls.)
-/

/-- The index after `set a 1; set b 2; set c 3; set d 4` at order 4. -/
def c1Tree : BPlusTreeIndex :=
  ((((BPlusTreeIndex.init 4).set [97] [49]).set [98] [50]).set [99] [51]).set [100] [52]

/-- C1: round-trip fails on the code.  After setting a, b, c, d at order 4
(any fan-out >= 4 is allowed by the claim), key c = `[99]` is stored in the
tree — `items` lists it with its most recent value — yet `get c` returns
`None`, because the `bisect_left` descent routes `c` to the left of the
separator `c` while the leaf split placed it in the right sibling. -/
theorem claim_C1 :
    BPlusTreeIndex.items c1Tree =
      [([97], [49]), ([98], [50]), ([99], [51]), ([100], [52])] ∧
    BPlusTreeIndex.get c1Tree [99] = none ∧
    BPlusTreeIndex.get c1Tree [97] = some [49] ∧
    BPlusTreeIndex.get c1Tree [98] = some [50] ∧
    BPlusTreeIndex.get c1Tree [100] = some [52] := by decide

/-- C2: overwrite is not size-neutral on the code.  Starting from `c1Tree`
(4 distinct keys ever set, size 4), a second `set` of the existing key c
descends to the left leaf `[a, b]`, misses the stored `c` in the right
sibling, and *inserts a duplicate*: the size becomes 5 although only 4
distinct keys were ever set. -/
theorem claim_C2 :
    c1Tree.size = 4 ∧
    (BPlusTreeIndex.set c1Tree [99] [53]).size = 5 ∧
    BPlusTreeIndex.get (BPlusTreeIndex.set c1Tree [99] [53]) [99] = some [53] := by decide

/-- Whether consecutive keys are strictly ascending under Python's string
order. -/
def strictAscending : List Str → Bool
  | [] => true
  | [_] => true
  | a :: b :: r => ltStr a b && strictAscending (b :: r)

/-- C8: the duplicate insertion of C2's run leaves the leaf chain
`a, b, c, c, d` — the chain is no longer strictly ascending and contains the
key c twice, violating the claimed invariant after a plain sequence of five
`set` calls at fan-out 4. -/
theorem claim_C8 :
    (BPlusTreeIndex.items (BPlusTreeIndex.set c1Tree [99] [53])).map Prod.fst =
      [[97], [98], [99], [99], [100]] ∧
    strictAscending
        ((BPlusTreeIndex.items (BPlusTreeIndex.set c1Tree [99] [53])).map Prod.fst) =
      false := by
  decide

/-- The file content `"SET a 1\nSET b 2"`: one terminated record and one
final line with no terminating line break. -/
def c3File : Str := [83, 69, 84, 32, 97, 32, 49, 10, 83, 69, 84, 32, 98, 32, 50]

/-- C3: `replay` *does* parse and yield the unterminated final line.  The
code only logs a warning when the last character is not a newline and then
iterates every line, including the partial one, so replaying `c3File` yields
both records, while replaying the content truncated to its last terminated
line yields only the first — contradicting the claim (and `replay`'s own
docstring, which says the last partial line is ignored). -/
theorem claim_C3 :
    replay c3File = [([97], [49]), ([98], [50])] ∧
    replay (c3File.take 8) = [([97], [49])] := by decide

/-- C5: `set` on the engine either succeeds — the record line is appended to
the log and only then the pair applied to the index — or reports a failure
(validation or I/O) and returns the receiver untouched, so on every failed
`set` the index (all of its lookups and its size) is exactly as before. -/
theorem claim_C5 (e : KVEngine) (k v : Str) (io : Bool) :
    ((KVEngine.set e k v io).1 = none ∧
      (KVEngine.set e k v io).2 =
        ⟨e.file ++ append_set_line k v, BPlusTreeIndex.set e.index k v⟩) ∨
    ((KVEngine.set e k v io).1.isSome = true ∧ (KVEngine.set e k v io).2 = e) := by
  by_cases hv : validate_key_value k v = true
  · by_cases hio : io = true
    · right
      simp [KVEngine.set, hv, hio]
    · left
      simp [KVEngine.set, hv, Bool.not_eq_true io ▸ hio]
  · right
    simp [KVEngine.set, Bool.not_eq_true _ ▸ hv]

/-- The live engine after one successful `set("a\n", "v")` on a fresh store. -/
def c6Engine : KVEngine := (KVEngine.set (KVEngine.fromLog []) [97, 10] [118] false).2

/-- C6: replay equivalence fails on the code.  `^\S+$` matches `"a\n"`
(Python's `$` also matches just before a final newline), so
`set("a\n", "v")` succeeds and writes the two-line record `"SET a\n v\n"`.
Replaying that log skips both malformed lines, so the reconstructed engine
answers `None` for the key the live engine still holds. -/
theorem claim_C6 :
    (KVEngine.set (KVEngine.fromLog []) [97, 10] [118] false).1 = none ∧
    BPlusTreeIndex.get c6Engine.index [97, 10] = some [118] ∧
    replay c6Engine.file = [] ∧
    BPlusTreeIndex.get (KVEngine.fromLog c6Engine.file).index [97, 10] = none := by decide

/-- C7 counterexample: the claim says the new right sibling receives the
ceiling of n/2 entries.  Splitting an overflowing leaf of n = 5 keys (the
overflow size at fan-out F = 5, which the claim admits since F >= 4) gives
the right sibling 2 entries, not `(5 + 1) / 2 = 3` — the code's
`mid = (n + 1) // 2` hands the ceiling to the *left* leaf. -/
theorem claim_C7_counterexample :
    (splitLeaf [[97], [98], [99], [100], [101]]
        [[49], [50], [51], [52], [53]]).2.2.1.length = 2 ∧
    (5 + 1) / 2 = 3 := by decide

/-- C7 (amended): splitting an overflowing leaf of n >= 4 keys divides the
keys/values at `mid = (n + 1) // 2`, so the *left* leaf keeps the ceiling
`n - n / 2` of the entries and the new right sibling receives the floor
`n / 2`; left then right concatenate back to the original sequences (the
order in which the relinked chain `left.next = right`,
`right.next = old next` visits them); and the promoted separator is the
first key of the new right sibling. -/
theorem claim_C7 (ks vs : List Str) (h : 4 ≤ ks.length) :
    (splitLeaf ks vs).1.1.length = ks.length - ks.length / 2 ∧
    (splitLeaf ks vs).2.2.1.length = ks.length / 2 ∧
    (splitLeaf ks vs).1.1 ++ (splitLeaf ks vs).2.2.1 = ks ∧
    (splitLeaf ks vs).1.2 ++ (splitLeaf ks vs).2.2.2 = vs ∧
    (splitLeaf ks vs).2.2.1 ≠ [] ∧
    (splitLeaf ks vs).2.1 = (splitLeaf ks vs).2.2.1.headD [] := by
  refine ⟨?_, ?_, List.take_append_drop _ _, List.take_append_drop _ _, ?_, rfl⟩
  · show (ks.take ((ks.length + 1) / 2)).length = _
    rw [List.length_take]
    omega
  · show (ks.drop ((ks.length + 1) / 2)).length = _
    rw [List.length_drop]
    omega
  · show ks.drop ((ks.length + 1) / 2) ≠ []
    intro hnil
    have hd := congrArg List.length hnil
    rw [List.length_drop, List.length_nil] at hd
    omega

/-- Witness for C7 at the concrete overflowing leaf of five keys: the right
sibling receives `5 / 2 = 2` entries. -/
theorem claim_C7_witness :
    (splitLeaf [[97], [98], [99], [100], [101]]
        [[49], [50], [51], [52], [53]]).2.2.1.length = 2 :=
  ((claim_C7 [[97], [98], [99], [100], [101]]
      [[49], [50], [51], [52], [53]] (by decide)).2.1).trans (by decide)

/-- C10: each read operation, rendered as a state transformer, returns the
index untouched, and repeating the read on the returned state yields the
same result. -/
theorem claim_C10 (t : BPlusTreeIndex) (k s p : Str) (e : Option Str) :
    (get_state t k).2 = t ∧
    (items_state t).2 = t ∧
    (iter_range_state t s e).2 = t ∧
    (iter_prefix_state t p).2 = t ∧
    (get_state (get_state t k).2 k).1 = (get_state t k).1 ∧
    (items_state (items_state t).2).1 = (items_state t).1 ∧
    (iter_range_state (iter_range_state t s e).2 s e).1 = (iter_range_state t s e).1 ∧
    (iter_prefix_state (iter_prefix_state t p).2 p).1 = (iter_prefix_state t p).1 :=
  ⟨rfl, rfl, rfl, rfl, rfl, rfl, rfl, rfl⟩

/-!
Claim C4 concerns `replay`'s per-line parsing.  The original claim speaks of
*whitespace*-delimited tokens; the code splits on the space character only
(`line.split(" ", 2)`).  `wsSplit2` phrases the claim's whitespace
tokenization so the counterexample can state the divergence, and
`space_delimited_record` phrases the amended (space-delimited) contract.
-/

/-- Split at the first whitespace character (claim-side tokenizer). -/
def wsSplitOnce : Str → Option (Str × Str)
  | [] => none
  | c :: r =>
    if isSpacePy c then some ([], r)
    else
      match wsSplitOnce r with
      | none => none
      | some (a, b) => some (c :: a, b)

/-- The original claim's tokenization: split at the first two whitespace
characters, at most three tokens, the third absorbing the rest. -/
def wsSplit2 (s : Str) : List Str :=
  match wsSplitOnce s with
  | none => [s]
  | some (a, r) =>
    match wsSplitOnce r with
    | none => [a, r]
    | some (b, c) => [a, b, c]

/-- The amended per-line contract, written from its words: the line splits at
its first two *space* characters (U+0020) into `(command, key, value)`, the
value absorbing all remaining text of the line; the line parses to a record
exactly when both spaces exist, the command is `SET`, and the key is
nonempty and free of whitespace.  Lines that do not parse are skipped and
replay continues. -/
def space_delimited_record (line : Str) : Option (Str × Str) :=
  match splitSpOnce line with
  | none => none
  | some (cmd, rest) =>
    match splitSpOnce rest with
    | none => none
    | some (key, value) =>
      if cmd = SETtok ∧ key ≠ [] ∧ key.all (fun c => !isSpacePy c) then some (key, value)
      else none

/-- C4 counterexample: the line `"SET\ta b"` splits into exactly the three
whitespace-delimited tokens `SET`, `a`, `b` — a well-formed record under the
claim's reading — yet the code, splitting on spaces only, skips it: replaying
the one-line file yields nothing instead of `[("a", "b")]`. -/
theorem claim_C4_counterexample :
    wsSplit2 [83, 69, 84, 9, 97, 32, 98] = [SETtok, [97], [98]] ∧
    ([97] : Str) ≠ [] ∧ ([97] : Str).all (fun c => !isSpacePy c) = true ∧
    replay [83, 69, 84, 9, 97, 32, 98, 10] = [] := by decide

/-- Splitting at a space is sound: the pieces flank the first space. -/
theorem splitSpOnce_eq :
    ∀ s a b, splitSpOnce s = some (a, b) → s = a ++ 32 :: b ∧ 32 ∉ a := by
  intro s
  induction s with
  | nil => intro a b h; simp [splitSpOnce] at h
  | cons c r ih =>
    intro a b h
    by_cases hc : c = 32
    · subst hc
      simp [splitSpOnce] at h
      obtain ⟨ha, hb⟩ := h
      subst ha; subst hb
      simp
    · simp [splitSpOnce, hc] at h
      rcases hsp : splitSpOnce r with _ | ⟨a', b'⟩
      · rw [hsp] at h; simp at h
      · rw [hsp] at h
        simp at h
        obtain ⟨ha, hb⟩ := h
        obtain ⟨hr, hna⟩ := ih a' b' hsp
        subst hb
        rw [← ha, hr]
        constructor
        · simp
        · intro hmem
          rcases List.mem_cons.mp hmem with h1 | h2
          · exact hc h1.symm
          · exact hna h2

/-- A key token produced by `line.split(" ", 2)` carries no newline when the
line itself carries none, so Python's `$`-before-final-newline quirk in
`^\S+$` cannot fire during replay: on newline-free lines the regex is exactly
"nonempty and whitespace-free". -/
theorem keyRegexOk_no10 (k : Str) (h : 10 ∉ k) :
    keyRegexOk k = (!k.isEmpty && k.all (fun c => !isSpacePy c)) := by
  unfold keyRegexOk
  have : k.getLast? ≠ some 10 := by
    intro hl
    exact h (List.mem_of_mem_getLast? hl)
  simp [this]

/-- Stripping trailing newlines is the identity on newline-free strings. -/
theorem rstrip10_no10 (l : Str) (h : ∀ c ∈ l, c ≠ 10) : rstrip10 l = l := by
  unfold rstrip10
  have hdw : l.reverse.dropWhile (fun c => c == 10) = l.reverse := by
    cases hrev : l.reverse with
    | nil => simp
    | cons x xs =>
      have hx : x ∈ l := by
        rw [← List.mem_reverse, hrev]
        simp
      have hx10 : (x == 10) = false := by simpa using h x hx
      simp [List.dropWhile_cons, hx10]
  rw [hdw, List.reverse_reverse]

/-- Stripping trailing newlines swallows a final newline. -/
theorem rstrip10_append10 (l : Str) : rstrip10 (l ++ [10]) = rstrip10 l := by
  unfold rstrip10
  simp [List.reverse_append]

mutual
/-- Every line produced by the splitter, once its trailing newline is
stripped, is newline-free (the splitter cuts at every newline; the
accumulator never holds one). -/
theorem splitLinesAux_no10 :
    ∀ (s acc : Str), (∀ c ∈ acc, c ≠ 10) →
      ∀ raw ∈ splitLinesAux acc s, 10 ∉ rstrip10 raw
  | [], acc, hacc => by
    intro raw hraw
    unfold splitLinesAux at hraw
    by_cases hemp : acc.isEmpty
    · simp [hemp] at hraw
    · simp [hemp] at hraw
      subst hraw
      rw [rstrip10_no10 _ (by intro c hc; exact hacc c (List.mem_reverse.mp hc))]
      intro hmem
      exact hacc 10 (List.mem_reverse.mp hmem) rfl
  | c :: rest, acc, hacc => by
    intro raw hraw
    unfold splitLinesAux at hraw
    by_cases h10 : c = 10
    · simp only [h10, if_pos rfl] at hraw
      rcases List.mem_cons.mp hraw with h1 | h2
      · subst h1
        rw [rstrip10_append10, rstrip10_no10 _
          (by intro x hx; exact hacc x (List.mem_reverse.mp hx))]
        intro hmem
        exact hacc 10 (List.mem_reverse.mp hmem) rfl
      · exact splitLinesAux_no10 rest [] (by simp) raw h2
    · by_cases h13 : c = 13
      · simp only [if_neg h10, h13, if_pos rfl] at hraw
        exact splitLinesCR_no10 rest acc hacc raw hraw
      · simp only [if_neg h10, if_neg h13] at hraw
        refine splitLinesAux_no10 rest (c :: acc) ?_ raw hraw
        intro x hx
        rcases List.mem_cons.mp hx with h1 | h2
        · subst h1; exact h10
        · exact hacc x h2
/-- The carriage-return continuation produces newline-free stripped lines as
well. -/
theorem splitLinesCR_no10 :
    ∀ (s acc : Str), (∀ c ∈ acc, c ≠ 10) →
      ∀ raw ∈ splitLinesCR acc s, 10 ∉ rstrip10 raw
  | [], acc, hacc => by
    intro raw hraw
    unfold splitLinesCR at hraw
    simp at hraw
    subst hraw
    rw [rstrip10_no10]
    · intro hmem
      rcases List.mem_append.mp hmem with h1 | h2
      · exact hacc 10 (List.mem_reverse.mp h1) rfl
      · simp at h2
    · intro x hx
      rcases List.mem_append.mp hx with h1 | h2
      · exact hacc x (List.mem_reverse.mp h1)
      · simp at h2
        subst h2
        decide
  | c :: rest, acc, hacc => by
    intro raw hraw
    unfold splitLinesCR at hraw
    have hcr13 : (10 : Nat) ∉ rstrip10 (acc.reverse ++ [13]) := by
      rw [rstrip10_no10]
      · intro hmem
        rcases List.mem_append.mp hmem with h1 | h2
        · exact hacc 10 (List.mem_reverse.mp h1) rfl
        · simp at h2
      · intro x hx
        rcases List.mem_append.mp hx with h1 | h2
        · exact hacc x (List.mem_reverse.mp h1)
        · simp at h2
          subst h2
          decide
    by_cases h10 : c = 10
    · simp only [h10, if_pos rfl] at hraw
      rcases List.mem_cons.mp hraw with h1 | h2
      · subst h1
        have : acc.reverse ++ [13, 10] = (acc.reverse ++ [13]) ++ [10] := by simp
        rw [this, rstrip10_append10]
        exact hcr13
      · exact splitLinesAux_no10 rest [] (by simp) raw h2
    · by_cases h13 : c = 13
      · simp only [if_neg h10, h13, if_pos rfl] at hraw
        rcases List.mem_cons.mp hraw with h1 | h2
        · subst h1; exact hcr13
        · exact splitLinesCR_no10 rest [] (by simp) raw h2
      · simp only [if_neg h10, if_neg h13] at hraw
        rcases List.mem_cons.mp hraw with h1 | h2
        · subst h1; exact hcr13
        · refine splitLinesAux_no10 rest [c] ?_ raw h2
          intro x hx
          simp at hx
          subst hx
          exact h10
end

/-- Every stripped line of a file is newline-free. -/
theorem splitLines_no10 (s : Str) : ∀ raw ∈ splitLines s, 10 ∉ rstrip10 raw :=
  splitLinesAux_no10 s [] (by simp)

/-- On a newline-free line, the code's parse (with the `^\S+$` quirk
neutralized) agrees with the amended space-delimited contract, the empty
line included. -/
theorem parse_eq_space_delimited (line : Str) (h : 10 ∉ line) :
    (if line = [] then none else parse_and_validate line) = space_delimited_record line := by
  rcases h1 : splitSpOnce line with _ | ⟨cmd, rest⟩
  · by_cases hemp : line = []
    · simp [hemp, space_delimited_record, splitSpOnce]
    · rw [if_neg hemp]
      simp [parse_and_validate, splitSp2, space_delimited_record, h1]
  · have hline := (splitSpOnce_eq line cmd rest h1).1
    have hne : line ≠ [] := by
      rw [hline]
      simp
    rw [if_neg hne]
    rcases h2 : splitSpOnce rest with _ | ⟨key, value⟩
    · simp [parse_and_validate, splitSp2, space_delimited_record, h1, h2]
    · have hrest := (splitSpOnce_eq rest key value h2).1
      have hk10 : (10 : Nat) ∉ key := by
        intro hk
        apply h
        rw [hline, hrest]
        simp [hk]
      simp only [parse_and_validate, splitSp2, space_delimited_record, h1, h2]
      rw [keyRegexOk_no10 key hk10]
      by_cases hcmd : cmd = SETtok
      · subst hcmd
        by_cases hkey : key = []
        · subst hkey
          simp
        · by_cases hall : key.all (fun c => !isSpacePy c)
          · simp [hkey, hall, List.isEmpty_iff]
          · simp [hkey, hall, List.isEmpty_iff]
      · simp [hcmd]

/-- C4 (amended): in the default non-strict mode, `replay` is exactly a
line-by-line filter: each line (after dropping its trailing newline) is split
at its first two *space* characters into `(command, key, value)` with the
value absorbing all remaining text; a line yields a record exactly when both
spaces exist, the command is `SET` and the key is nonempty and
whitespace-free, and every other line is skipped without aborting the
remaining records. -/
theorem claim_C4 (file : Str) :
    replay file =
      (splitLines file).filterMap (fun raw => space_delimited_record (rstrip10 raw)) := by
  unfold replay
  apply List.filterMap_congr
  intro raw hraw
  exact parse_eq_space_delimited (rstrip10 raw) (splitLines_no10 file raw hraw)

/-!
Order-theoretic facts about Python's string comparison, needed to reason
about the sorted structure that `iter_range` and `iter_prefix` rely on.
-/

/-- Head-wise characterization of the lexicographic order. -/
theorem ltStr_cons_iff (a b : Nat) (as bs : Str) :
    ltStr (a :: as) (b :: bs) = true ↔ a < b ∨ (a = b ∧ ltStr as bs = true) := by
  simp only [ltStr]
  by_cases h1 : a < b
  · simp [h1]
  · by_cases h2 : b < a
    · simp [h1, h2]
      omega
    · have hab : a = b := by omega
      simp [h1, h2, hab]

/-- Irreflexivity of the string order. -/
theorem ltStr_irrefl (a : Str) : ltStr a a = false := by
  induction a with
  | nil => rfl
  | cons x xs ih => simp [ltStr, ih]

/-- Transitivity of the string order. -/
theorem ltStr_trans : ∀ a b c : Str, ltStr a b = true → ltStr b c = true → ltStr a c = true
  | [], [], _, hab, _ => by simp [ltStr] at hab
  | [], _ :: _, [], _, hbc => by simp [ltStr] at hbc
  | [], _ :: _, _ :: _, _, _ => by simp [ltStr]
  | _ :: _, [], _, hab, _ => by simp [ltStr] at hab
  | _ :: _, _ :: _, [], _, hbc => by simp [ltStr] at hbc
  | a :: as, b :: bs, c :: cs, hab, hbc => by
    rw [ltStr_cons_iff] at hab hbc ⊢
    rcases hab with h1 | ⟨h1, h1'⟩
    · rcases hbc with h2 | ⟨h2, h2'⟩
      · exact Or.inl (Nat.lt_trans h1 h2)
      · exact Or.inl (h2 ▸ h1)
    · rcases hbc with h2 | ⟨h2, h2'⟩
      · exact Or.inl (h1 ▸ h2)
      · exact Or.inr ⟨h1.trans h2, ltStr_trans as bs cs h1' h2'⟩

/-- Totality: a comparison is false exactly when the reverse holds or the
strings are equal. -/
theorem ltStr_eq_false_iff : ∀ a b : Str, ltStr a b = false ↔ (ltStr b a = true ∨ a = b)
  | [], [] => by simp [ltStr]
  | [], _ :: _ => by simp [ltStr]
  | _ :: _, [] => by simp [ltStr]
  | a :: as, b :: bs => by
    constructor
    · intro h
      rcases Nat.lt_trichotomy a b with h1 | h1 | h1
      · rw [(ltStr_cons_iff a b as bs).mpr (Or.inl h1)] at h
        cases h
      · subst h1
        have hax : ltStr as bs = false := by
          by_contra hx
          rw [(ltStr_cons_iff a a as bs).mpr (Or.inr ⟨rfl, by simpa using hx⟩)] at h
          cases h
        rcases (ltStr_eq_false_iff as bs).mp hax with h2 | h2
        · exact Or.inl ((ltStr_cons_iff a a bs as).mpr (Or.inr ⟨rfl, h2⟩))
        · exact Or.inr (by rw [h2])
      · exact Or.inl ((ltStr_cons_iff b a bs as).mpr (Or.inl h1))
    · intro h
      rcases h with h | h
      · rw [ltStr_cons_iff] at h
        by_contra hx
        rw [Bool.not_eq_false, ltStr_cons_iff] at hx
        rcases h with h1 | ⟨h1, h1'⟩
        · rcases hx with h2 | ⟨h2, h2'⟩
          · omega
          · omega
        · rcases hx with h2 | ⟨h2, h2'⟩
          · omega
          · have := ltStr_trans as bs as h2' h1'
            rw [ltStr_irrefl] at this
            cases this
      · rw [h]
        exact ltStr_irrefl _

/-- Asymmetry. -/
theorem ltStr_asymm (a b : Str) (h : ltStr a b = true) : ltStr b a = false :=
  (ltStr_eq_false_iff b a).mpr (Or.inl h)

/-- From `a <= b` and `b <= c` conclude `a <= c` (stated on the `<` of the
reversed pairs). -/
theorem ltStr_le_trans (a b c : Str) (h1 : ltStr b a = false) (h2 : ltStr c b = false) :
    ltStr c a = false := by
  rcases (ltStr_eq_false_iff b a).mp h1 with h1' | h1'
  · rcases (ltStr_eq_false_iff c b).mp h2 with h2' | h2'
    · exact (ltStr_eq_false_iff c a).mpr (Or.inl (ltStr_trans a b c h1' h2'))
    · subst h2'
      exact (ltStr_eq_false_iff c a).mpr (Or.inl h1')
  · subst h1'
    exact h2

/-- From `a <= b` and `b < c` conclude `a < c`. -/
theorem ltStr_lt_of_le_of_lt (a b c : Str) (h1 : ltStr b a = false) (h2 : ltStr b c = true) :
    ltStr a c = true := by
  rcases (ltStr_eq_false_iff b a).mp h1 with h1' | h1'
  · exact ltStr_trans a b c h1' h2
  · subst h1'
    exact h2

/-- From `a < b` and `b <= c` conclude `a < c`. -/
theorem ltStr_lt_of_lt_of_le (a b c : Str) (h1 : ltStr a b = true) (h2 : ltStr c b = false) :
    ltStr a c = true := by
  rcases (ltStr_eq_false_iff c b).mp h2 with h2' | h2'
  · exact ltStr_trans a b c h1 h2'
  · subst h2'
    exact h1

/-!
A Boolean invariant for key lists living in an optional open/closed
interval: every key `x` satisfies `lo < x` (when a lower bound is present)
and `x <= hi` (when an upper bound is present), and consecutive keys are
strictly increasing.  This is the shape the validator `_validate` checks
(sorted node keys; separators between the child key ranges), sharpened to
strict lower bounds so that a conforming tree has a strictly ascending leaf
chain.
-/

/-- An optional strict lower bound. -/
def ltO : Option Str → Str → Bool
  | none, _ => true
  | some l, x => ltStr l x

/-- An optional inclusive upper bound. -/
def leO : Str → Option Str → Bool
  | _, none => true
  | x, some h => !ltStr h x

/-- An optional inclusive lower bound. -/
def loLe : Option Str → Str → Bool
  | none, _ => true
  | some l, x => !ltStr x l

/-- Keys strictly ascending, all strictly above `lo` and at most `hi`. -/
def okKeys : Option Str → Option Str → List Str → Bool
  | _, _, [] => true
  | lo, hi, k :: ks => ltO lo k && leO k hi && okKeys (some k) hi ks

/-- A strict bound weakens to an inclusive one. -/
theorem ltO_loLe (lo : Option Str) (x : Str) (h : ltO lo x = true) : loLe lo x = true := by
  cases lo with
  | none => rfl
  | some l => simpa [loLe] using ltStr_asymm l x (by simpa [ltO] using h)

/-- Every key in a conforming list satisfies both bounds. -/
theorem okKeys_all :
    ∀ (l : List Str) (lo hi : Option Str), okKeys lo hi l = true →
      ∀ x ∈ l, ltO lo x = true ∧ leO x hi = true
  | [], _, _, _ => by simp
  | k :: ks, lo, hi, h => by
    rw [okKeys, Bool.and_assoc] at h
    obtain ⟨h1, h2, h3⟩ := by simpa using h
    intro x hx
    rcases List.mem_cons.mp hx with hx | hx
    · subst hx
      exact ⟨h1, h2⟩
    · obtain ⟨ha, hb⟩ := okKeys_all ks (some k) hi h3 x hx
      refine ⟨?_, hb⟩
      cases lo with
      | none => rfl
      | some l0 =>
        simp only [ltO] at h1 ha ⊢
        exact ltStr_trans l0 k x h1 ha

/-- A conforming list stays conforming under an inclusively smaller lower
bound. -/
theorem okKeys_weaken_lo (l : List Str) (lo hi : Option Str) (s : Str)
    (h : okKeys (some s) hi l = true) (hls : loLe lo s = true) :
    okKeys lo hi l = true := by
  cases l with
  | nil => rfl
  | cons k ks =>
    rw [okKeys, Bool.and_assoc, Bool.and_eq_true, Bool.and_eq_true] at h ⊢
    obtain ⟨h1, h2, h3⟩ := h
    refine ⟨?_, h2, h3⟩
    cases lo with
    | none => rfl
    | some l0 =>
      simp only [ltO] at h1 ⊢
      simp only [loLe, Bool.not_eq_true'] at hls
      exact ltStr_lt_of_le_of_lt l0 s k hls h1

/-- Concatenation of two conforming lists separated by `s`. -/
theorem okKeys_append :
    ∀ (a b : List Str) (lo hi : Option Str) (s : Str),
      okKeys lo (some s) a = true → okKeys (some s) hi b = true →
      loLe lo s = true → leO s hi = true → okKeys lo hi (a ++ b) = true
  | [], b, lo, hi, s, _, hb, hls, _ => by
    simpa using okKeys_weaken_lo b lo hi s hb hls
  | k :: a, b, lo, hi, s, ha, hb, hls, hsh => by
    rw [okKeys, Bool.and_assoc, Bool.and_eq_true, Bool.and_eq_true] at ha
    obtain ⟨h1, h2, h3⟩ := ha
    rw [List.cons_append, okKeys, Bool.and_assoc, Bool.and_eq_true, Bool.and_eq_true]
    refine ⟨h1, ?_, ?_⟩
    · cases hi with
      | none => rfl
      | some h0 =>
        simp only [leO, Bool.not_eq_true'] at h2 hsh ⊢
        exact ltStr_le_trans k s h0 h2 hsh
    · exact okKeys_append a b (some k) hi s h3 hb
        (by simpa [loLe, leO] using h2) hsh

/-- Filtering preserves conformance. -/
theorem okKeys_filter (q : Str → Bool) :
    ∀ (l : List Str) (lo hi : Option Str), okKeys lo hi l = true →
      okKeys lo hi (l.filter q) = true
  | [], _, _, _ => by simp [okKeys]
  | k :: ks, lo, hi, h => by
    rw [okKeys, Bool.and_assoc, Bool.and_eq_true, Bool.and_eq_true] at h
    obtain ⟨h1, h2, h3⟩ := h
    by_cases hq : q k = true
    · rw [List.filter_cons_of_pos hq, okKeys, Bool.and_assoc, Bool.and_eq_true,
        Bool.and_eq_true]
      exact ⟨h1, h2, okKeys_filter q ks (some k) hi h3⟩
    · rw [List.filter_cons_of_neg (by simpa using hq)]
      exact okKeys_weaken_lo _ lo hi k (okKeys_filter q ks (some k) hi h3) (ltO_loLe lo k h1)

mutual
/-- The B+ tree shape invariant inside an optional key interval: leaves have
parallel lists and conforming keys; internal nodes have conforming separator
keys and children bracketed by them (child `i` holds keys in
`(sep[i-1], sep[i]]`, matching the `bisect_left` routing).  This is the
sharpened form of what `_validate` checks (its separator test
`left_max <= k <= right_min` admits equal keys on both sides; strict lower
bounds are what make the leaf chain strictly ascending). -/
def goodN (lo hi : Option Str) : Node → Bool
  | .leaf ks vs => (ks.length == vs.length) && okKeys lo hi ks
  | .internal ks cs => okKeys lo hi ks && goodKids lo hi ks cs
/-- Children bracketed by the separators: `len(children) = len(keys) + 1`
is forced by the pairing. -/
def goodKids (lo hi : Option Str) : List Str → List Node → Bool
  | [], [c] => goodN lo hi c
  | s :: ks, c :: cs => goodN lo (some s) c && goodKids (some s) hi ks cs
  | _, _ => false
end

/-- The invariant at the root, over the whole key space. -/
def goodT (t : BPlusTreeIndex) : Bool := goodN none none t.root

mutual
/-- In a conforming subtree the chain of item keys is strictly ascending and
bracketed by the subtree's interval. -/
theorem itemsN_okKeys :
    ∀ (n : Node) (lo hi : Option Str), goodN lo hi n = true →
      okKeys lo hi ((itemsN n).map Prod.fst) = true
  | .leaf ks vs, lo, hi, h => by
    rw [goodN, Bool.and_eq_true] at h
    obtain ⟨hlen, hks⟩ := h
    rw [itemsN, List.map_fst_zip ks vs (Nat.le_of_eq (by simpa using hlen))]
    exact hks
  | .internal ks cs, lo, hi, h => by
    rw [goodN, Bool.and_eq_true] at h
    rw [itemsN]
    exact itemsL_okKeys ks cs lo hi h.2 h.1
/-- The same for a separated children list. -/
theorem itemsL_okKeys :
    ∀ (ks : List Str) (cs : List Node) (lo hi : Option Str),
      goodKids lo hi ks cs = true → okKeys lo hi ks = true →
      okKeys lo hi ((itemsL cs).map Prod.fst) = true
  | [], [c], lo, hi, h, _ => by
    rw [goodKids] at h
    rw [itemsL, itemsL]
    simpa using itemsN_okKeys c lo hi h
  | s :: ks, c :: cs, lo, hi, h, hk => by
    rw [goodKids, Bool.and_eq_true] at h
    obtain ⟨h1, h2⟩ := h
    rw [okKeys, Bool.and_assoc, Bool.and_eq_true, Bool.and_eq_true] at hk
    obtain ⟨hk1, hk2, hk3⟩ := hk
    rw [itemsL, List.map_append]
    exact okKeys_append _ _ lo hi s (itemsN_okKeys c lo (some s) h1)
      (itemsL_okKeys ks cs (some s) hi h2 hk3) (ltO_loLe lo s hk1) hk2
  | [], [], _, _, h, _ => by simp [goodKids] at h
  | [], _ :: _ :: _, _, _, h, _ => by simp [goodKids] at h
  | _ :: _, [], _, _, h, _ => by simp [goodKids] at h
end

/-- Dropping over a wholly satisfying prefix continues into the suffix. -/
theorem dropWhile_append_true {α : Type} (p : α → Bool) :
    ∀ (a b : List α), (∀ x ∈ a, p x = true) → (a ++ b).dropWhile p = b.dropWhile p
  | [], b, _ => by simp
  | x :: a, b, h => by
    rw [List.cons_append, List.dropWhile_cons, if_pos (h x (by simp))]
    exact dropWhile_append_true p a b (fun y hy => h y (by simp [hy]))

/-- Dropping never reaches a wholly unsatisfying suffix. -/
theorem dropWhile_append_false {α : Type} (p : α → Bool) :
    ∀ (a b : List α), (∀ x ∈ b, p x = false) → (a ++ b).dropWhile p = a.dropWhile p ++ b
  | [], b, h => by
    cases b with
    | nil => simp
    | cons y b => simp [List.dropWhile_cons, h y (by simp)]
  | x :: a, b, h => by
    rw [List.cons_append, List.dropWhile_cons, List.dropWhile_cons]
    by_cases hx : p x = true
    · rw [if_pos hx, if_pos hx]
      exact dropWhile_append_false p a b h
    · rw [if_neg hx, if_neg hx, List.cons_append]

/-- Inside one leaf, starting at `bisect_left(keys, k)` is the same as
dropping the item prefix whose keys are `< k`. -/
theorem drop_bisect :
    ∀ (ks vs : List Str) (k : Str),
      (ks.zip vs).drop (bisect_left ks k) =
        (ks.zip vs).dropWhile (fun kv => ltStr kv.1 k)
  | [], vs, k => by simp
  | x :: ks, [], k => by simp
  | x :: ks, v :: vs, k => by
    rw [List.zip_cons_cons, List.dropWhile_cons]
    by_cases h : ltStr x k = true
    · rw [show bisect_left (x :: ks) k = bisect_left ks k + 1 by simp [bisect_left, h],
        List.drop_succ_cons, if_pos (by simpa using h)]
      exact drop_bisect ks vs k
    · rw [show bisect_left (x :: ks) k = 0 by simp [bisect_left, h], List.drop_zero,
        if_neg (by simpa using h)]

mutual
/-- On a conforming subtree, the chain walk of `iter_range` from the leaf
located for `k` yields exactly the item suffix past the keys `< k`: the
`bisect_left` descent may only skip items that the drop also discards. -/
theorem tailFrom_eq :
    ∀ (n : Node) (lo hi : Option Str) (k : Str), goodN lo hi n = true →
      tailFrom k n = (itemsN n).dropWhile (fun kv => ltStr kv.1 k)
  | .leaf ks vs, _, _, k, _ => by
    rw [tailFrom, itemsN]
    exact drop_bisect ks vs k
  | .internal ks cs, lo, hi, k, h => by
    rw [goodN, Bool.and_eq_true] at h
    rw [tailFrom, itemsN]
    exact tailFromL_eq ks cs lo hi k h.2 h.1
/-- The same statement over a separated children list, with the descent index
`bisect_left ks k`. -/
theorem tailFromL_eq :
    ∀ (ks : List Str) (cs : List Node) (lo hi : Option Str) (k : Str),
      goodKids lo hi ks cs = true → okKeys lo hi ks = true →
      tailFromL k (bisect_left ks k) cs =
        (itemsL cs).dropWhile (fun kv => ltStr kv.1 k)
  | [], [c], lo, hi, k, h, _ => by
    rw [goodKids] at h
    rw [show bisect_left [] k = 0 from rfl]
    simp only [tailFromL, itemsL, List.append_nil]
    exact tailFrom_eq c lo hi k h
  | s :: ks, c :: cs, lo, hi, k, h, hk => by
    rw [goodKids, Bool.and_eq_true] at h
    obtain ⟨h1, h2⟩ := h
    rw [okKeys, Bool.and_assoc, Bool.and_eq_true, Bool.and_eq_true] at hk
    obtain ⟨hk1, hk2, hk3⟩ := hk
    rw [itemsL]
    by_cases hsk : ltStr s k = true
    · rw [show bisect_left (s :: ks) k = bisect_left ks k + 1 by simp [bisect_left, hsk],
        tailFromL]
      have hall : ∀ kv ∈ itemsN c, (fun kv : Str × Str => ltStr kv.1 k) kv = true := by
        intro kv hkv
        have hmem : kv.1 ∈ (itemsN c).map Prod.fst := List.mem_map_of_mem Prod.fst hkv
        have hb := (okKeys_all _ lo (some s) (itemsN_okKeys c lo (some s) h1) kv.1 hmem).2
        simp only [leO, Bool.not_eq_true'] at hb
        exact ltStr_lt_of_le_of_lt kv.1 s k hb hsk
      rw [dropWhile_append_true _ _ _ hall]
      exact tailFromL_eq ks cs (some s) hi k h2 hk3
    · rw [show bisect_left (s :: ks) k = 0 by simp [bisect_left, hsk], tailFromL]
      have hall2 : ∀ kv ∈ itemsL cs, (fun kv : Str × Str => ltStr kv.1 k) kv = false := by
        intro kv hkv
        have hmem : kv.1 ∈ (itemsL cs).map Prod.fst := List.mem_map_of_mem Prod.fst hkv
        have hb := (okKeys_all _ (some s) hi (itemsL_okKeys ks cs (some s) hi h2 hk3)
          kv.1 hmem).1
        simp only [ltO] at hb
        by_contra hx
        rw [Bool.not_eq_false] at hx
        exact hsk (ltStr_trans s kv.1 k hb hx)
      rw [dropWhile_append_false _ _ _ hall2]
      rw [tailFrom_eq c lo (some s) k h1]
  | [], [], _, _, _, h, _ => by simp [goodKids] at h
  | [], _ :: _ :: _, _, _, _, h, _ => by simp [goodKids] at h
  | _ :: _, [], _, _, _, h, _ => by simp [goodKids] at h
end

/-- On an item list with conforming (strictly ascending) keys, dropping the
prefix `< s` is the same as filtering for `>= s`. -/
theorem dropWhile_lt_filter (s : Str) :
    ∀ (m : List (Str × Str)) (lo hi : Option Str),
      okKeys lo hi (m.map Prod.fst) = true →
      m.dropWhile (fun kv => ltStr kv.1 s) = m.filter (fun kv => !ltStr kv.1 s)
  | [], _, _, _ => by simp
  | kv :: m, lo, hi, h => by
    rw [List.map_cons, okKeys, Bool.and_assoc, Bool.and_eq_true, Bool.and_eq_true] at h
    obtain ⟨h1, h2, h3⟩ := h
    rw [List.dropWhile_cons, List.filter_cons]
    by_cases hlt : ltStr kv.1 s = true
    · rw [if_pos hlt, if_neg (by simpa using hlt)]
      exact dropWhile_lt_filter s m (some kv.1) hi h3
    · rw [if_neg hlt, if_pos (by simpa using hlt)]
      rw [List.filter_eq_self.mpr]
      intro x hx
      have hmem : x.1 ∈ m.map Prod.fst := List.mem_map_of_mem Prod.fst hx
      have hgt := (okKeys_all _ (some kv.1) hi h3 x.1 hmem).1
      simp only [ltO] at hgt
      simp only [Bool.not_eq_true']
      by_contra hxlt
      rw [Bool.not_eq_false] at hxlt
      exact hlt (ltStr_trans kv.1 x.1 s hgt hxlt)

/-- On an item list with conforming keys, taking while `< e` is the same as
filtering for `< e`. -/
theorem takeWhile_lt_filter (e : Str) :
    ∀ (m : List (Str × Str)) (lo hi : Option Str),
      okKeys lo hi (m.map Prod.fst) = true →
      m.takeWhile (fun kv => ltStr kv.1 e) = m.filter (fun kv => ltStr kv.1 e)
  | [], _, _, _ => by simp
  | kv :: m, lo, hi, h => by
    rw [List.map_cons, okKeys, Bool.and_assoc, Bool.and_eq_true, Bool.and_eq_true] at h
    obtain ⟨h1, h2, h3⟩ := h
    rw [List.takeWhile_cons, List.filter_cons]
    by_cases hlt : ltStr kv.1 e = true
    · rw [if_pos hlt, if_pos hlt]
      rw [takeWhile_lt_filter e m (some kv.1) hi h3]
    · rw [if_neg hlt, if_neg hlt]
      rw [List.filter_eq_nil_iff.mpr]
      intro x hx
      have hmem : x.1 ∈ m.map Prod.fst := List.mem_map_of_mem Prod.fst hx
      have hgt := (okKeys_all _ (some kv.1) hi h3 x.1 hmem).1
      simp only [ltO] at hgt
      intro hxlt
      exact hlt (ltStr_trans kv.1 x.1 e hgt hxlt)

/-- Filtering on the key commutes with projecting the key. -/
theorem map_fst_filter (q : Str → Bool) :
    ∀ m : List (Str × Str),
      (m.filter (fun kv => q kv.1)).map Prod.fst = (m.map Prod.fst).filter q
  | [] => by simp
  | kv :: m => by
    rw [List.map_cons, List.filter_cons, List.filter_cons]
    by_cases hq : q kv.1 = true
    · rw [if_pos hq, if_pos hq, List.map_cons, map_fst_filter q m]
    · rw [if_neg hq, if_neg hq, map_fst_filter q m]

/-- Comparison is invariant under a common prefix. -/
theorem ltStr_append_left : ∀ (p a b : Str), ltStr (p ++ a) (p ++ b) = ltStr a b
  | [], _, _ => rfl
  | x :: p, a, b => by
    rw [List.cons_append, List.cons_append]
    simp only [ltStr, Nat.lt_irrefl, if_false]
    exact ltStr_append_left p a b

/-- No string is below the empty string. -/
theorem ltStr_nil_right : ∀ a : Str, ltStr a [] = false
  | [] => rfl
  | _ :: _ => rfl

/-- A string never precedes its own prefix. -/
theorem pfx_not_lt (p k : Str) (h : List.isPrefixOf p k = true) : ltStr k p = false := by
  obtain ⟨t, ht⟩ := List.isPrefixOf_iff_prefix.mp h
  subst ht
  rw [show ltStr (p ++ t) p = ltStr (p ++ t) (p ++ []) by rw [List.append_nil],
    ltStr_append_left]
  exact ltStr_nil_right t

/-- A string extending the prefix with nothing, or with a next character
below the sentinel, stays below `prefix + "￿"`. -/
theorem pfx_lt_hi (p k : Str) (h : List.isPrefixOf p k = true)
    (hc : k.drop p.length = [] ∨ ∃ c r, k.drop p.length = c :: r ∧ c < 0xFFFF) :
    ltStr k (prefix_hi p) = true := by
  obtain ⟨t, ht⟩ := List.isPrefixOf_iff_prefix.mp h
  subst ht
  rw [List.drop_left] at hc
  rw [prefix_hi, ltStr_append_left]
  rcases hc with hc | ⟨c, r, hc, hlt⟩
  · subst hc
    rfl
  · subst hc
    rw [ltStr_cons_iff]
    exact Or.inl hlt

/-- A string at least the prefix but not extending it is at least
`prefix + "￿"` as well. -/
theorem not_pfx_ge_hi :
    ∀ (p k : Str), List.isPrefixOf p k = false → ltStr k p = false →
      ltStr k (prefix_hi p) = false
  | [], k, hpf, _ => by simp [List.isPrefixOf] at hpf
  | a :: p, [], _, hlt => by simp [ltStr] at hlt
  | a :: p, b :: k, hpf, hlt => by
    rw [prefix_hi, List.cons_append]
    by_contra hx
    rw [Bool.not_eq_false, ltStr_cons_iff] at hx
    rw [Bool.eq_false_iff] at hlt
    rcases hx with hx | ⟨hx, hx'⟩
    · exact hlt ((ltStr_cons_iff b a k p).mpr (Or.inl hx))
    · subst hx
      simp only [List.isPrefixOf, beq_self_eq_true, Bool.true_and] at hpf
      have hklt : ltStr k p = false := by
        rw [Bool.eq_false_iff]
        intro hklt
        exact hlt ((ltStr_cons_iff b b k p).mpr (Or.inr ⟨rfl, hklt⟩))
      have := not_pfx_ge_hi p k hpf hklt
      rw [prefix_hi] at this
      rw [this] at hx'
      cases hx'

/-- The side condition the amended prefix claim needs of a stored key: either
it does not extend the prefix at all, or the extension is empty or continues
with a character below U+FFFF. -/
def extOk (p k : Str) : Bool :=
  !(List.isPrefixOf p k) ||
    (match k.drop p.length with
     | [] => true
     | c :: _ => decide (c < 0xFFFF))

/-- For a key admitted by `extOk`, membership in the range
`[p, p + "￿")` coincides with having `p` as a prefix. -/
theorem range_iff_pfx (p k : Str) (he : extOk p k = true) :
    (!ltStr k p && ltStr k (prefix_hi p)) = List.isPrefixOf p k := by
  by_cases hp : List.isPrefixOf p k = true
  · rw [hp, pfx_not_lt p k hp]
    rw [extOk, hp] at he
    simp only [Bool.not_true, Bool.false_or] at he
    rw [pfx_lt_hi p k hp ?_]
    · rfl
    · rcases hd : k.drop p.length with _ | ⟨c, r⟩
      · exact Or.inl rfl
      · rw [hd] at he
        exact Or.inr ⟨c, r, rfl, by simpa using he⟩
  · rw [Bool.not_eq_true] at hp
    rw [hp]
    by_cases hlt : ltStr k p = true
    · rw [hlt]
      rfl
    · rw [Bool.not_eq_true] at hlt
      rw [not_pfx_ge_hi p k hp hlt]
      simp

/-- C9 (amended): on any index state satisfying the B+ tree invariant
`goodT`, and for stored keys that do not continue the (non-empty) prefix with
a character at or above the sentinel U+FFFF, `iter_prefix(p)` yields exactly
the stored pairs whose key starts with `p`, and their keys come out strictly
ascending. -/
theorem claim_C9 (t : BPlusTreeIndex) (p : Str) (hp : p ≠ [])
    (hg : goodT t = true)
    (he : ∀ kv ∈ BPlusTreeIndex.items t, extOk p kv.1 = true) :
    iter_prefix t p =
      (BPlusTreeIndex.items t).filter (fun kv => List.isPrefixOf p kv.1) ∧
    okKeys none none (( iter_prefix t p).map Prod.fst) = true := by
  have hm : okKeys none none ((itemsN t.root).map Prod.fst) = true :=
    itemsN_okKeys t.root none none hg
  have hstep : iter_prefix t p =
      (itemsN t.root).filter
        (fun kv => !ltStr kv.1 p && ltStr kv.1 (prefix_hi p)) := by
    rw [show iter_prefix t p =
        (tailFrom p t.root).takeWhile (fun kv => ltStr kv.1 (prefix_hi p)) by
      rw [ iter_prefix, if_neg hp]
      rfl]
    rw [tailFrom_eq t.root none none p hg]
    rw [dropWhile_lt_filter p _ none none hm]
    have hm2 : okKeys none none
        (((itemsN t.root).filter (fun kv => !ltStr kv.1 p)).map Prod.fst) = true := by
      rw [map_fst_filter (fun x => !ltStr x p) (itemsN t.root)]
      exact okKeys_filter _ _ none none hm
    rw [takeWhile_lt_filter (prefix_hi p) _ none none hm2]
    rw [List.filter_filter]
    apply List.filter_congr
    intro kv hkv
    rw [Bool.and_comm]
  constructor
  · rw [hstep]
    apply List.filter_congr
    intro kv hkv
    exact range_iff_pfx p kv.1 (he kv hkv)
  · rw [hstep]
    have hok := okKeys_filter (fun x => !ltStr x p && ltStr x (prefix_hi p))
      ((itemsN t.root).map Prod.fst) none none hm
    rw [← map_fst_filter (fun x => !ltStr x p && ltStr x (prefix_hi p)) (itemsN t.root)]
      at hok
    exact hok

/-- The index holding only the key `"a￿"` (`a` followed by U+FFFF). -/
def c9t : BPlusTreeIndex := (BPlusTreeIndex.init 16).set [97, 0xFFFF] [49]

/-- C9 counterexample: the stored key `"a￿"` starts with the prefix `"a"`,
but it is not below the exclusive range bound `_prefix_hi("a") = "a￿"`, so
`iter_prefix("a")` yields nothing — the sentinel does *not* sort after every
stored string extending the prefix. -/
theorem claim_C9_counterexample :
    BPlusTreeIndex.items c9t = [([97, 0xFFFF], [49])] ∧
    List.isPrefixOf [97] [97, 0xFFFF] = true ∧
    iter_prefix c9t [97] = [] := by decide

/-- The index after inserting app -> 1, apple -> 2, banana -> 3 (order 16). -/
def c9w : BPlusTreeIndex :=
  (((BPlusTreeIndex.init 16).set [97, 112, 112] [49]).set
      [97, 112, 112, 108, 101] [50]).set [98, 97, 110, 97, 110, 97] [51]

/-- Witness for C9 on the claim's own example: `iter_prefix("app")` over
`{app: 1, apple: 2, banana: 3}` yields exactly `[(app, 1), (apple, 2)]`. -/
theorem claim_C9_witness :
    iter_prefix c9w [97, 112, 112] =
      [([97, 112, 112], [49]), ([97, 112, 112, 108, 101], [50])] :=
  ((claim_C9 c9w [97, 112, 112] (by decide) (by decide) (by decide)).1).trans (by decide)
